import Mathlib

/-!
# Verification of the LOC-audit scripts

Shallow embedding of `scripts/loc_report.py` (comment-aware line counter,
threshold reporter) and `scripts/refine_candidates.py` (path predicate and
change-frequency tally), together with proofs of the specified properties.

A file's text is modelled as a `List (List Char)`: the list of its physical
lines, each line the list of its characters.  Newline terminators are
omitted: Python's `line.strip()` removes them before any other processing,
so their presence is unobservable.  Python's `str.strip()` (whitespace
trimming) is modelled by `strip` below, with the whitespace test given by
`Char.isWhitespace`.
-/

namespace LocReport

/-- Whitespace test used by Python's `str.strip()`. -/
def isSpace (c : Char) : Bool := c.isWhitespace

/-- Drop leading whitespace (left half of Python `str.strip()`). -/
def lstrip (l : List Char) : List Char := l.dropWhile isSpace

/-- Drop trailing whitespace (right half of Python `str.strip()`). -/
def rstrip : List Char → List Char
  | [] => []
  | c :: rest =>
      let r := rstrip rest
      if r = [] ∧ isSpace c then [] else c :: r

/-- Python `str.strip()` on a line of characters. -/
def strip (l : List Char) : List Char := rstrip (lstrip l)

/-- Test that `p` is an initial segment of `l` (`startsList p l`). -/
def startsList : List Char → List Char → Bool
  | [], _ => true
  | _ :: _, [] => false
  | p :: ps, c :: cs => p = c && startsList ps cs

/-- Test that the pattern `pat` occurs as a contiguous substring of
`l` (Python's `pat in l`). -/
def hasSub (pat : List Char) : List Char → Bool
  | [] => startsList pat []
  | c :: rest => startsList pat (c :: rest) || hasSub pat rest

/-- The character loop of `count_loc` (`loc_report.py`, lines 42-62).

Scans a stripped line with two-character lookahead, starting in
comment-block state `inB`; returns the accumulated effective (non-comment)
characters and the comment-block state at the end of the line.

* inside a block comment, `*/` closes it and everything else is skipped;
* outside, `//` discards the rest of the line, `/*` opens a block, and any
  other character is appended to the effective line. -/
def scanChars : Bool → List Char → List Char × Bool
  | inB, [] => ([], inB)
  | inB, [c] => if inB then ([], true) else ([c], false)
  | true, c1 :: c2 :: rest =>
      if c1 = '*' ∧ c2 = '/' then scanChars false rest
      else scanChars true (c2 :: rest)
  | false, c1 :: c2 :: rest =>
      if c1 = '/' ∧ c2 = '/' then ([], false)
      else if c1 = '/' ∧ c2 = '*' then scanChars true rest
      else
        let r := scanChars false (c2 :: rest)
        (c1 :: r.1, r.2)

/-- Processing of one physical line inside `count_loc`'s `for` loop:
strip the raw line; a blank line is skipped before any comment logic
(state unchanged, contribution 0); otherwise the line is scanned and
contributes 1 exactly when the effective substring is non-blank.
Returns (contribution, comment-block state after the line). -/
def processLine (inB : Bool) (l : List Char) : Nat × Bool :=
  let lc := strip l
  if lc = [] then (0, inB)
  else
    let eb := scanChars inB lc
    (if strip eb.1 = [] then 0 else 1, eb.2)

/-- The line loop of `count_loc`, threading the `in_comment_block` state. -/
def countLocAux : Bool → List (List Char) → Nat
  | _, [] => 0
  | b, l :: rest => (processLine b l).1 + countLocAux (processLine b l).2 rest

/-- Function `count_loc` of `loc_report.py` on already-read file content:
`in_comment_block` starts `false` at every invocation. -/
def count_loc (lines : List (List Char)) : Nat := countLocAux false lines

/-- The per-file scanning loop of `main`: `count_loc` is invoked once per
file, on that file's own content. -/
def scanAll (files : List (List (List Char))) : List Nat :=
  files.map count_loc

/-- Outcome of `count_loc` applied to one file on disk: `none` models an
`IOError` while reading (the `except IOError` branch logs and returns 0),
`some lines` a successful read of the content. -/
def count_loc_result : Option (List (List Char)) → Nat
  | none => 0
  | some content => count_loc content

/-- The per-file loop of `main` with fallible reads: each file's read
outcome is handled independently and the loop always continues. -/
def runAll (reads : List (Option (List (List Char)))) : List Nat :=
  reads.map count_loc_result

/-! ## Path model

`refine_candidates.py` inspects paths through `pathlib.Path`: `.suffix`
(extension of the final component) and `.parts` (the path split into
components).  We model POSIX relative paths, the form produced by
`git log --name-only`, from which every path reaching the predicate comes:
`parts` splits on `/` and discards empty components and `.` (as `pathlib`
normalises them away); the name is the final component, except that `..`
has no name; `suffix` is the part of the name from its last dot, empty when
the dot is absent, leading, or trailing (`pathlib`'s `0 < i < len - 1`
rule). -/

/-- Split a character list on `/` (Python `s.split('/')`). -/
def splitSlash : List Char → List (List Char)
  | [] => [[]]
  | c :: rest =>
      let gs := splitSlash rest
      if c = '/' then [] :: gs
      else
        match gs with
        | [] => [[c]]
        | g :: gs2 => (c :: g) :: gs2

/-- Python `pathlib.Path(s).parts` for a relative POSIX path string. -/
def pathParts (s : String) : List (List Char) :=
  (splitSlash s.data).filter (fun comp => comp ≠ [] ∧ comp ≠ ['.'])

/-- Python `pathlib.Path(s).name`: the final component, `""` for `..` or an empty
path. -/
def pathName (s : String) : List Char :=
  match (pathParts s).getLast? with
  | some n => if n = ['.', '.'] then [] else n
  | none => []

/-- Index of the last occurrence of `.` in a name (`str.rfind`), `none`
when absent. -/
def rfindDot : List Char → Option Nat
  | [] => none
  | c :: rest =>
      match rfindDot rest with
      | some i => some (i + 1)
      | none => if c = '.' then some 0 else none

/-- Python `pathlib.Path(s).suffix`: from the last dot of the name onwards, empty
unless the dot index `i` satisfies `0 < i < len(name) - 1`. -/
def pathSuffix (s : String) : List Char :=
  let name := pathName s
  match rfindDot name with
  | none => []
  | some i => if 0 < i ∧ i + 1 < name.length then name.drop i else []

end LocReport

namespace LocReport

/-! ## `loc_report.py` constants and the Threshold Reporter -/

/-- Constant `SOURCE_EXTENSIONS` of `loc_report.py`. -/
def SOURCE_EXTENSIONS_loc : List (List Char) := [".cpp".data, ".h".data]

/-- Constant `EXCLUDE_DIRS` of `loc_report.py`. -/
def EXCLUDE_DIRS_loc : List (List Char) :=
  ["extern".data, "build".data, ".git".data, "resources".data]

/-- The File Set Resolver's filtering rule of `loc_report.py` phrased as a
predicate on one path: the extension is in `SOURCE_EXTENSIONS` and no path
component is in `EXCLUDE_DIRS` (in `gather_source_files` the exclusion is
applied by pruning directories during the walk; on a single path this is
the induced acceptance condition). -/
def resolverAccepts (p : String) : Bool :=
  decide (pathSuffix p ∈ SOURCE_EXTENSIONS_loc) &&
    !((pathParts p).any (fun comp => decide (comp ∈ EXCLUDE_DIRS_loc)))

/-- Violation predicate of `main` in `loc_report.py`: `loc > args.threshold`
(strict).  Counts are the `Nat` results of `count_loc`; the command-line
threshold is a Python `int`, modelled as `Int`. -/
def violates (limit : Int) (pc : String × Nat) : Bool :=
  decide (limit < (pc.2 : Int))

/-- The descending-by-count order used by both scripts when reporting
(`key=lambda x: x[1], reverse=True` and `key=lambda item: item[1],
reverse=True`; Python's sorts are stable). -/
def byCountDesc (a b : String × Nat) : Prop := b.2 ≤ a.2

instance : DecidableRel byCountDesc := fun a b => Nat.decLe b.2 a.2

instance : IsTotal (String × Nat) byCountDesc :=
  ⟨fun a b => Nat.le_total b.2 a.2⟩

instance : IsTrans (String × Nat) byCountDesc :=
  ⟨fun _ _ _ hab hbc => Nat.le_trans hbc hab⟩

/-- The reporting tail of `main` in `loc_report.py` (lines 119-138): collect
the `(relative_path, loc)` pairs with `loc > threshold` in discovery order,
sort them by count descending (stable), and exit with status 1 when any
violation exists, 0 otherwise. -/
def report (counts : List (String × Nat)) (limit : Int) :
    List (String × Nat) × Nat :=
  let v := counts.filter (violates limit)
  (v.insertionSort byCountDesc, if v.isEmpty then 0 else 1)

/-! ## `refine_candidates.py` -/

/-- Constant `SOURCE_EXTENSIONS` of `refine_candidates.py`. -/
def SOURCE_EXTENSIONS_refine : List (List Char) :=
  [".cpp".data, ".c".data, ".cc".data, ".h".data, ".hpp".data]

/-- Constant `EXCLUDE_DIRS` of `refine_candidates.py`. -/
def EXCLUDE_DIRS_refine : List (List Char) := ["extern".data, "build".data]

/-- Predicate `is_project_source_file` of `refine_candidates.py`: reject blank
strings, then require a suffix in `SOURCE_EXTENSIONS` and no path component
in `EXCLUDE_DIRS`. -/
def is_project_source_file (p : String) : Bool :=
  if strip p.data = [] then false
  else if ¬ (pathSuffix p ∈ SOURCE_EXTENSIONS_refine) then false
  else if (pathParts p).any (fun comp => decide (comp ∈ EXCLUDE_DIRS_refine)) then false
  else true

/-- The filtering rule of `refine_candidates.py` stated in the spec's
words, with that script's own constants: accept a path iff it is non-blank,
its extension is in the allowed extension set, and no component is in the
excluded directory set. -/
def refineRule (p : String) : Bool :=
  !(strip p.data).isEmpty &&
    decide (pathSuffix p ∈ SOURCE_EXTENSIONS_refine) &&
    !((pathParts p).any (fun comp => decide (comp ∈ EXCLUDE_DIRS_refine)))

/-- Paths not seen yet, in order of first occurrence (auxiliary for
`firstOccs`; `seen` accumulates the paths already emitted). -/
def firstOccsAux (seen : List String) : List String → List String
  | [] => []
  | p :: rest =>
      if p ∈ seen then firstOccsAux seen rest
      else p :: firstOccsAux (p :: seen) rest

/-- Keys of `collections.Counter` in insertion order: each path's first
occurrence, in list order. -/
def firstOccs (l : List String) : List String := firstOccsAux [] l

/-- The tally of `main` in `refine_candidates.py`: filter the supplied path
strings with `is_project_source_file`, count occurrences (`Counter`, whose
items appear in first-occurrence order), keep entries with count strictly
above the threshold, and sort by count descending. -/
def tally (paths : List String) (threshold : Int) : List (String × Nat) :=
  let proj := paths.filter is_project_source_file
  let hot := ((firstOccs proj).map (fun p => (p, proj.count p))).filter
    (fun pc => decide (threshold < (pc.2 : Int)))
  hot.insertionSort byCountDesc

/-! ## Properties of `strip` -/

/-- The result of `rstrip` is an initial segment of its argument. -/
theorem exists_rstrip_append : ∀ l : List Char, ∃ t, l = rstrip l ++ t
  | [] => ⟨[], rfl⟩
  | c :: rest => by
      obtain ⟨t, ht⟩ := exists_rstrip_append rest
      by_cases h : rstrip rest = [] ∧ isSpace c
      · exact ⟨c :: rest, by simp [rstrip, h]⟩
      · exact ⟨t, by simp only [rstrip, if_neg h, List.cons_append, ← ht]⟩

theorem rstrip_idem : ∀ l : List Char, rstrip (rstrip l) = rstrip l
  | [] => rfl
  | c :: rest => by
      by_cases h : rstrip rest = [] ∧ isSpace c
      · simp [rstrip, h]
      · have h1 : rstrip (c :: rest) = c :: rstrip rest := by
          simp only [rstrip, if_neg h]
        rw [h1]
        simp only [rstrip, rstrip_idem rest, if_neg h]

theorem lstrip_rstrip_lstrip : ∀ l : List Char, lstrip (rstrip (lstrip l)) = rstrip (lstrip l)
  | [] => rfl
  | c :: rest => by
      by_cases hc : isSpace c
      · have h1 : lstrip (c :: rest) = lstrip rest := by
          simp [lstrip, List.dropWhile_cons, hc]
        rw [h1]; exact lstrip_rstrip_lstrip rest
      · have h1 : lstrip (c :: rest) = c :: rest := by
          simp [lstrip, List.dropWhile_cons, hc]
      -- the head of `rstrip (c :: rest)` is `c`, which is not whitespace
        rw [h1]
        by_cases h2 : rstrip rest = [] ∧ isSpace c
        · exact absurd h2.2 hc
        · have h3 : rstrip (c :: rest) = c :: rstrip rest := by
            simp only [rstrip, if_neg h2]
          rw [h3]
          simp [lstrip, List.dropWhile_cons, hc]

theorem strip_idem (l : List Char) : strip (strip l) = strip l := by
  unfold strip
  rw [lstrip_rstrip_lstrip, rstrip_idem]

/-- Stripping removes a whitespace run at each end. -/
theorem exists_strip_decomp (l : List Char) : ∃ a b, l = a ++ strip l ++ b := by
  obtain ⟨t, ht⟩ := exists_rstrip_append (lstrip l)
  refine ⟨l.takeWhile isSpace, t, ?_⟩
  conv_lhs => rw [← List.takeWhile_append_dropWhile (p := isSpace) (l := l)]
  rw [List.append_assoc]
  exact congrArg (l.takeWhile isSpace ++ ·) ht

/-! ## Properties of `hasSub` -/

theorem startsList_iff : ∀ (p l : List Char), startsList p l = true ↔ ∃ t, l = p ++ t
  | [], l => by simp [startsList]
  | _ :: _, [] => by simp [startsList]
  | p :: ps, c :: cs => by
      simp only [startsList, Bool.and_eq_true, decide_eq_true_eq,
        startsList_iff ps cs, List.cons_append, List.cons.injEq]
      constructor
      · rintro ⟨rfl, t, rfl⟩; exact ⟨t, rfl, rfl⟩
      · rintro ⟨t, rfl, rfl⟩; exact ⟨rfl, t, rfl⟩

theorem hasSub_iff : ∀ (pat l : List Char),
    hasSub pat l = true ↔ ∃ a b, l = a ++ pat ++ b
  | pat, [] => by
      simp only [hasSub, startsList_iff]
      constructor
      · rintro ⟨t, ht⟩
        exact ⟨[], t, ht⟩
      · rintro ⟨a, b, hab⟩
        rw [eq_comm, List.append_eq_nil, List.append_eq_nil] at hab
        exact ⟨[], by simp [hab.1.2]⟩
  | pat, c :: rest => by
      simp only [hasSub, Bool.or_eq_true, startsList_iff, hasSub_iff pat rest]
      constructor
      · rintro (⟨t, ht⟩ | ⟨a, b, hab⟩)
        · exact ⟨[], t, by simp [ht]⟩
        · exact ⟨c :: a, b, by simp [hab]⟩
      · rintro ⟨a, b, hab⟩
        cases a with
        | nil => exact Or.inl ⟨b, by simpa using hab⟩
        | cons x a' =>
            right
            rw [List.cons_append, List.cons_append, List.cons.injEq] at hab
            exact ⟨a', b, hab.2⟩

theorem hasSub_append {pat m : List Char} (a b : List Char)
    (h : hasSub pat m = true) : hasSub pat (a ++ m ++ b) = true := by
  rw [hasSub_iff] at h ⊢
  obtain ⟨x, y, rfl⟩ := h
  exact ⟨a ++ x, y ++ b, by simp⟩

/-- A pattern absent from a line is absent from its stripped form. -/
theorem hasSub_strip_eq_false {pat l : List Char}
    (h : hasSub pat l = false) : hasSub pat (strip l) = false := by
  cases hb : hasSub pat (strip l) with
  | false => rfl
  | true =>
      obtain ⟨a, b, hd⟩ := exists_strip_decomp l
      have : hasSub pat l = true := by
        rw [hd]; exact hasSub_append a b hb
      rw [this] at h; cases h

theorem hasSub_cons_false {pat : List Char} {c : Char} {rest : List Char}
    (h : hasSub pat (c :: rest) = false) :
    startsList pat (c :: rest) = false ∧ hasSub pat rest = false := by
  simpa only [hasSub, Bool.or_eq_false_iff] using h

/-! ## Properties of `scanChars` -/

theorem scanChars_true_cons2 (c1 c2 : Char) (rest : List Char) :
    scanChars true (c1 :: c2 :: rest) =
      if c1 = '*' ∧ c2 = '/' then scanChars false rest
      else scanChars true (c2 :: rest) := rfl

theorem scanChars_false_cons2 (c1 c2 : Char) (rest : List Char) :
    scanChars false (c1 :: c2 :: rest) =
      if c1 = '/' ∧ c2 = '/' then ([], false)
      else if c1 = '/' ∧ c2 = '*' then scanChars true rest
      else ((c1 :: (scanChars false (c2 :: rest)).1,
             (scanChars false (c2 :: rest)).2)) := rfl

/-- On a line containing neither `//` nor `/*`, scanning outside a block
comment keeps every character and stays outside. -/
theorem scanChars_noComment : ∀ (l : List Char),
    hasSub ['/', '/'] l = false → hasSub ['/', '*'] l = false →
    scanChars false l = (l, false)
  | [], _, _ => rfl
  | [c], _, _ => rfl
  | c1 :: c2 :: rest, h1, h2 => by
      have n1 : ¬(c1 = '/' ∧ c2 = '/') := by
        rintro ⟨rfl, rfl⟩
        simp [hasSub, startsList] at h1
      have n2 : ¬(c1 = '/' ∧ c2 = '*') := by
        rintro ⟨rfl, rfl⟩
        simp [hasSub, startsList] at h2
      rw [scanChars_false_cons2, if_neg n1, if_neg n2,
        scanChars_noComment (c2 :: rest) (hasSub_cons_false h1).2
          (hasSub_cons_false h2).2]

/-- Inside a block comment, a line without `*/` contributes nothing and
leaves the scanner inside the block. -/
theorem scanChars_inBlock : ∀ (l : List Char),
    hasSub ['*', '/'] l = false → scanChars true l = ([], true)
  | [], _ => rfl
  | [_], _ => rfl
  | c1 :: c2 :: rest, h => by
      have n1 : ¬(c1 = '*' ∧ c2 = '/') := by
        rintro ⟨rfl, rfl⟩
        simp [hasSub, startsList] at h
      rw [scanChars_true_cons2, if_neg n1,
        scanChars_inBlock (c2 :: rest) (hasSub_cons_false h).2]

/-- Inside a block comment, everything up to the first `*/` is skipped and
scanning resumes outside the block right after it. -/
theorem scanChars_closeBlock : ∀ (u v : List Char),
    hasSub ['*', '/'] u = false →
    scanChars true (u ++ '*' :: '/' :: v) = scanChars false v
  | [], v, _ => by
      rw [List.nil_append, scanChars_true_cons2, if_pos ⟨rfl, rfl⟩]
  | [c], v, h => by
      have n1 : ¬(c = '*' ∧ ('*' : Char) = '/') := by rintro ⟨_, h2⟩; cases h2
      rw [List.cons_append, List.nil_append, scanChars_true_cons2, if_neg n1]
      exact scanChars_closeBlock [] v rfl
  | c :: d :: u', v, h => by
      have n1 : ¬(c = '*' ∧ d = '/') := by
        rintro ⟨rfl, rfl⟩
        simp [hasSub, startsList] at h
      rw [List.cons_append, List.cons_append, scanChars_true_cons2]
      rw [← List.cons_append]
      rw [if_neg n1]
      exact scanChars_closeBlock (d :: u') v (hasSub_cons_false h).2

/-- Outside a block comment, `//` ends the scan: the effective substring
is exactly the text before it, provided that text contains no comment
marker and does not itself end in `/` (which would shift the first `//`
occurrence one character to the left). -/
theorem scanChars_lineComment : ∀ (a b : List Char),
    hasSub ['/', '/'] a = false → hasSub ['/', '*'] a = false →
    a.getLast? ≠ some '/' →
    scanChars false (a ++ '/' :: '/' :: b) = (a, false)
  | [], b, _, _, _ => by
      rw [List.nil_append, scanChars_false_cons2, if_pos ⟨rfl, rfl⟩]
  | [x], b, h1, h2, h3 => by
      have hx : ¬ x = '/' := by
        intro hx; exact h3 (by simp [hx])
      have n1 : ¬(x = '/' ∧ ('/' : Char) = '/') := fun hc => hx hc.1
      have n2 : ¬(x = '/' ∧ ('/' : Char) = '*') := fun hc => hx hc.1
      have hbase : scanChars false ('/' :: '/' :: b) = ([], false) := by
        rw [scanChars_false_cons2, if_pos ⟨rfl, rfl⟩]
      rw [List.cons_append, List.nil_append, scanChars_false_cons2,
        if_neg n1, if_neg n2, hbase]
  | x :: y :: a', b, h1, h2, h3 => by
      have n1 : ¬(x = '/' ∧ y = '/') := by
        rintro ⟨rfl, rfl⟩
        simp [hasSub, startsList] at h1
      have n2 : ¬(x = '/' ∧ y = '*') := by
        rintro ⟨rfl, rfl⟩
        simp [hasSub, startsList] at h2
      have h3' : (y :: a').getLast? ≠ some '/' := by
        rwa [List.getLast?_cons_cons] at h3
      rw [List.cons_append, List.cons_append, scanChars_false_cons2]
      rw [← List.cons_append]
      rw [if_neg n1, if_neg n2,
        scanChars_lineComment (y :: a') b (hasSub_cons_false h1).2
          (hasSub_cons_false h2).2 h3']

/-! ## Per-line lemmas -/

/-- A line with neither `//` nor `/*`, processed outside a block comment,
counts exactly when it is non-blank, and leaves the scanner outside. -/
theorem processLine_noComment {l : List Char}
    (h1 : hasSub ['/', '/'] l = false) (h2 : hasSub ['/', '*'] l = false) :
    processLine false l = (if (strip l).isEmpty then 0 else 1, false) := by
  unfold processLine
  by_cases hb : strip l = []
  · simp [hb]
  · rw [if_neg hb,
      scanChars_noComment (strip l) (hasSub_strip_eq_false h1)
        (hasSub_strip_eq_false h2)]
    simp [strip_idem, hb, List.isEmpty_iff]

theorem scanChars_nil (inB : Bool) : scanChars inB [] = ([], inB) := by
  cases inB <;> rfl

theorem processLine_fst_le_one (b : Bool) (l : List Char) :
    (processLine b l).1 ≤ 1 := by
  by_cases hb : strip l = []
  · simp [processLine, hb]
  · simp only [processLine, if_neg hb]
    split_ifs <;> simp

theorem countLocAux_le_length : ∀ (b : Bool) (lines : List (List Char)),
    countLocAux b lines ≤ lines.length
  | _, [] => Nat.le_refl 0
  | b, l :: rest => by
      have h1 := processLine_fst_le_one b l
      have h2 := countLocAux_le_length (processLine b l).2 rest
      simpa [countLocAux, List.length_cons, Nat.add_comm] using Nat.add_le_add h1 h2

theorem countLocAux_no_markers : ∀ (lines : List (List Char)),
    (∀ l ∈ lines, hasSub ['/', '/'] l = false ∧ hasSub ['/', '*'] l = false ∧
      hasSub ['*', '/'] l = false) →
    countLocAux false lines = lines.countP (fun l => !(strip l).isEmpty)
  | [], _ => rfl
  | l :: rest, h => by
      obtain ⟨h1, h2, _⟩ := h l (List.mem_cons_self l rest)
      have hrest := countLocAux_no_markers rest
        (fun x hx => h x (List.mem_cons_of_mem l hx))
      rw [show countLocAux false (l :: rest) =
            (processLine false l).1 + countLocAux (processLine false l).2 rest
          from rfl,
        processLine_noComment h1 h2]
      by_cases hb : (strip l).isEmpty
      · simp [hb, hrest, List.countP_cons]
      · simp only [hb, if_false, List.countP_cons, hrest]
        simp [hb, Nat.add_comm]

end LocReport

namespace LocReport

/-! ## Claim theorems for the Comment Scanner -/

/-- C1.  On text with no comment markers at all, `count_loc` returns
exactly the number of physical lines whose stripped content is
non-empty. -/
theorem count_loc_no_markers (lines : List (List Char))
    (h : ∀ l ∈ lines, hasSub ['/', '/'] l = false ∧
      hasSub ['/', '*'] l = false ∧ hasSub ['*', '/'] l = false) :
    count_loc lines = lines.countP (fun l => !(strip l).isEmpty) :=
  countLocAux_no_markers lines h

/-- Witness for C1 on concrete input: four lines, no comment markers, two
of them non-blank. -/
theorem count_loc_no_markers_witness :
    count_loc ["int a;".data, "".data, "   ".data, "x".data] =
      ["int a;".data, "".data, "   ".data, "x".data].countP
        (fun l => !(strip l).isEmpty) ∧
    count_loc ["int a;".data, "".data, "   ".data, "x".data] = 2 :=
  ⟨count_loc_no_markers _ (by decide), by decide⟩

/-- C2.  A block comment opened on line N and closed on line N+2 with code
only after the closer: line N contributes 0 and enters the block, line N+1
contributes 0 and stays inside, line N+2 contributes 1 and leaves the
block; the three lines together count 1. -/
theorem count_loc_block_comment (lN lN1 lN2 t u v : List Char)
    (h1 : strip lN = '/' :: '*' :: t)
    (h2 : hasSub ['*', '/'] t = false)
    (h3 : hasSub ['*', '/'] (strip lN1) = false)
    (h4 : strip lN2 = u ++ '*' :: '/' :: v)
    (h5 : hasSub ['*', '/'] u = false)
    (h6 : hasSub ['/', '/'] v = false)
    (h7 : hasSub ['/', '*'] v = false)
    (h8 : strip v ≠ []) :
    processLine false lN = (0, true) ∧
    processLine true lN1 = (0, true) ∧
    processLine true lN2 = (1, false) ∧
    count_loc [lN, lN1, lN2] = 1 := by
  have pl1 : processLine false lN = (0, true) := by
    unfold processLine
    rw [if_neg (by simp [h1]), h1, scanChars_false_cons2,
      if_neg (by rintro ⟨_, hc⟩; cases hc), if_pos ⟨rfl, rfl⟩,
      scanChars_inBlock t h2]
    decide
  have pl2 : processLine true lN1 = (0, true) := by
    unfold processLine
    by_cases hb : strip lN1 = []
    · simp [hb]
    · rw [if_neg hb, scanChars_inBlock (strip lN1) h3]
      decide
  have pl3 : processLine true lN2 = (1, false) := by
    unfold processLine
    rw [if_neg (by simp [h4]), h4, scanChars_closeBlock u v h5,
      scanChars_noComment v h6 h7]
    simp [h8]
  refine ⟨pl1, pl2, pl3, ?_⟩
  show countLocAux false [lN, lN1, lN2] = 1
  rw [show countLocAux false [lN, lN1, lN2] =
        (processLine false lN).1 +
          ((processLine (processLine false lN).2 lN1).1 +
            ((processLine
                (processLine (processLine false lN).2 lN1).2 lN2).1 + 0))
      from rfl, pl1]
  simp only [pl2, pl3]

/-- Witness for C2 on concrete input. -/
theorem count_loc_block_comment_witness :
    processLine false "/* open".data = (0, true) ∧
    processLine true "inside the comment".data = (0, true) ∧
    processLine true " end */ x = 1;".data = (1, false) ∧
    count_loc ["/* open".data, "inside the comment".data,
      " end */ x = 1;".data] = 1 :=
  count_loc_block_comment "/* open".data "inside the comment".data
    " end */ x = 1;".data " open".data "end ".data " x = 1;".data
    (by decide) (by decide) (by decide) (by decide) (by decide)
    (by decide) (by decide) (by decide)

/-- C3.  Outside a block comment: (a) a line of the form
`code // comment`, where the code part contains no comment marker, does
not end in `/`, and is non-blank, counts 1; (b) a line starting (after
stripping) with `//` counts 0; (c) in general a line counts exactly when
the effective (comment-stripped) substring is non-blank. -/
theorem count_loc_trailing_comment :
    (∀ (l a b : List Char), strip l = a ++ '/' :: '/' :: b →
      hasSub ['/', '/'] a = false → hasSub ['/', '*'] a = false →
      a.getLast? ≠ some '/' → strip a ≠ [] →
      processLine false l = (1, false)) ∧
    (∀ (l b : List Char), strip l = '/' :: '/' :: b →
      processLine false l = (0, false)) ∧
    (∀ (inB : Bool) (l : List Char),
      (processLine inB l).1 =
        if strip (scanChars inB (strip l)).1 = [] then 0 else 1) := by
  refine ⟨?_, ?_, ?_⟩
  · intro l a b hl h1 h2 h3 h4
    unfold processLine
    rw [if_neg (by simp [hl]), hl, scanChars_lineComment a b h1 h2 h3]
    simp [h4]
  · intro l b hl
    unfold processLine
    rw [if_neg (by simp [hl]), hl, scanChars_false_cons2, if_pos ⟨rfl, rfl⟩]
    decide
  · intro inB l
    by_cases hb : strip l = []
    · simp [processLine, hb, scanChars_nil]
      decide
    · simp [processLine, hb]

/-- Witness for C3 on concrete input: `x = 1; // set x` counts 1,
`// only a comment` counts 0. -/
theorem count_loc_trailing_comment_witness :
    processLine false "x = 1; // set x".data = (1, false) ∧
    processLine false "// only a comment".data = (0, false) :=
  ⟨count_loc_trailing_comment.1 "x = 1; // set x".data "x = 1; ".data
      " set x".data (by decide) (by decide) (by decide) (by decide)
      (by decide),
    count_loc_trailing_comment.2.1 "// only a comment".data
      " only a comment".data (by decide)⟩

/-- C4.  `count_loc` is a natural number (hence non-negative) bounded by
the number of physical lines. -/
theorem count_loc_le_length (lines : List (List Char)) :
    0 ≤ count_loc lines ∧ count_loc lines ≤ lines.length :=
  ⟨Nat.zero_le _, countLocAux_le_length false lines⟩

/-- C5.  Scanning is stateless across invocations: in the per-file loop
the result for a file is `count_loc` of that file's own content, whatever
was scanned before it, and re-scanning identical content yields the
identical count (`in_comment_block` is a local of `count_loc`, initialised
`false` at each call). -/
theorem count_loc_stateless (pre : List (List (List Char)))
    (c : List (List Char)) :
    scanAll (pre ++ [c, c]) = scanAll pre ++ [count_loc c, count_loc c] := by
  simp [scanAll]

/-- C9.  A failed read yields count 0 for that file, and the loop over the
remaining files continues unchanged. -/
theorem read_failure_skip (pre post : List (Option (List (List Char)))) :
    count_loc_result none = 0 ∧
    runAll (pre ++ none :: post) = runAll pre ++ 0 :: runAll post := by
  simp [runAll, count_loc_result]

/-- C10.  Outside a block comment an unmatched `*/` is ordinary code: a
line whose stripped content is exactly `*/` counts 1, and the scanner
stays outside the block for the following lines. -/
theorem count_loc_stray_closer (l : List Char) (rest : List (List Char))
    (h : strip l = ['*', '/']) :
    count_loc (l :: rest) = 1 + count_loc rest := by
  have hp : processLine false l = (1, false) := by
    unfold processLine
    rw [h]
    decide
  show countLocAux false (l :: rest) = 1 + countLocAux false rest
  rw [show countLocAux false (l :: rest) =
        (processLine false l).1 + countLocAux (processLine false l).2 rest
      from rfl, hp]

/-- Witness for C10 on concrete input. -/
theorem count_loc_stray_closer_witness :
    count_loc [" */ ".data, "x".data] = 1 + count_loc ["x".data] :=
  count_loc_stray_closer " */ ".data ["x".data] (by decide)

/-! ## Stability of the descending sort

A stable descending sort leaves the relative order of equal-count entries
unchanged: filtering the sorted list at any fixed count value gives back
the entries with that value in their original order. -/

theorem orderedInsert_filter_eq (k : Nat) (a : String × Nat) :
    ∀ m : List (String × Nat),
      (m.orderedInsert byCountDesc a).filter (fun pc => decide (pc.2 = k)) =
        if a.2 = k then a :: m.filter (fun pc => decide (pc.2 = k))
        else m.filter (fun pc => decide (pc.2 = k))
  | [] => by by_cases h : a.2 = k <;> simp [List.orderedInsert, h]
  | b :: m' => by
      by_cases hr : byCountDesc a b
      · rw [List.orderedInsert, if_pos hr]
        by_cases ha : a.2 = k <;> simp [List.filter_cons, ha]
      · rw [List.orderedInsert, if_neg hr]
        have hab : a.2 < b.2 := Nat.lt_of_not_le hr
        by_cases ha : a.2 = k
        · have hb : ¬ b.2 = k := by omega
          simp [List.filter_cons, hb, orderedInsert_filter_eq k a m', ha]
        · by_cases hb : b.2 = k <;>
            simp [List.filter_cons, hb, orderedInsert_filter_eq k a m', ha]

theorem insertionSort_filter_eq (k : Nat) :
    ∀ m : List (String × Nat),
      (m.insertionSort byCountDesc).filter (fun pc => decide (pc.2 = k)) =
        m.filter (fun pc => decide (pc.2 = k))
  | [] => rfl
  | a :: m' => by
      rw [List.insertionSort, orderedInsert_filter_eq k a _, List.filter_cons]
      by_cases ha : a.2 = k <;> simp [ha, insertionSort_filter_eq k m']

/-! ## Claim theorem for the Threshold Reporter -/

/-- C6.  The reporter's violation list is exactly the `(path, count)`
pairs with `count > limit` (as a permutation), sorted by count descending,
with ties kept in discovery order (filtering the result at any fixed count
value returns the original subsequence); the exit status is non-zero iff
some violation exists; and on the spec's example the result is
`[(A,600),(C,501)]` with exit status 1. -/
theorem report_correct (counts : List (String × Nat)) (limit : Int) :
    (report counts limit).1.Perm (counts.filter (violates limit)) ∧
    (report counts limit).1.Sorted byCountDesc ∧
    (∀ k : Nat, (report counts limit).1.filter (fun pc => decide (pc.2 = k)) =
      counts.filter (fun pc => decide (pc.2 = k) && violates limit pc)) ∧
    ((report counts limit).2 ≠ 0 ↔ ∃ pc ∈ counts, limit < (pc.2 : Int)) ∧
    report [("A", 600), ("B", 400), ("C", 501)] 500 =
      ([("A", 600), ("C", 501)], 1) := by
  refine ⟨List.perm_insertionSort byCountDesc _,
    List.sorted_insertionSort byCountDesc _, ?_, ?_, by decide⟩
  · intro k
    rw [show (report counts limit).1 =
          (counts.filter (violates limit)).insertionSort byCountDesc from rfl,
      insertionSort_filter_eq, List.filter_filter]
  · rw [show (report counts limit).2 =
        (if (counts.filter (violates limit)).isEmpty then 0 else 1) from rfl]
    by_cases he : (counts.filter (violates limit)).isEmpty
    · simp only [he, if_true]
      constructor
      · intro h; cases h rfl
      · rintro ⟨pc, hmem, hlt⟩ _
        rw [List.isEmpty_iff, List.filter_eq_nil_iff] at he
        exact (he pc hmem) (by simpa [violates] using hlt)
    · simp only [he, if_false]
      constructor
      · intro _
        rw [List.isEmpty_iff, List.filter_eq_nil_iff] at he
        push_neg at he
        obtain ⟨pc, hmem, hp⟩ := he
        exact ⟨pc, hmem, by simpa [violates] using hp⟩
      · intro _; exact one_ne_zero

/-! ## Claim theorems for the path predicates and the frequency tally -/

/-- C7 counterexample.  The two scripts do not share one filtering
predicate: `x.hpp` is accepted by `refine_candidates.py`'s
`is_project_source_file` (its extension set contains `.hpp`) but is not
accepted by `loc_report.py`'s resolver rule (whose extension set is only
`{.cpp, .h}`). -/
theorem predicate_not_shared :
    is_project_source_file "x.hpp" = true ∧
      resolverAccepts "x.hpp" = false := by
  decide

/-- C7 amended.  `is_project_source_file` applies the same *shape* of rule
as the resolver — extension in an allowed set, no component in an excluded
set — but with `refine_candidates.py`'s own constants
(`{.cpp,.c,.cc,.h,.hpp}` and `{extern, build}`), not the resolver's. -/
theorem is_project_source_file_eq_refineRule (p : String) :
    is_project_source_file p = refineRule p := by
  unfold is_project_source_file refineRule
  by_cases h1 : strip p.data = []
  · simp [h1]
  · by_cases h2 : pathSuffix p ∈ SOURCE_EXTENSIONS_refine
    · by_cases h3 :
        (pathParts p).any (fun comp => decide (comp ∈ EXCLUDE_DIRS_refine))
      · simp [h1, h2, h3, List.isEmpty_iff]
      · simp [h1, h2, h3, List.isEmpty_iff]
    · simp [h1, h2, List.isEmpty_iff]

theorem mem_firstOccsAux : ∀ (l seen : List String) (p : String),
    p ∈ firstOccsAux seen l ↔ p ∈ l ∧ p ∉ seen
  | [], seen, p => by simp [firstOccsAux]
  | q :: rest, seen, p => by
      by_cases hq : q ∈ seen
      · rw [firstOccsAux, if_pos hq, mem_firstOccsAux rest seen p]
        constructor
        · rintro ⟨h1, h2⟩; exact ⟨List.mem_cons_of_mem q h1, h2⟩
        · rintro ⟨h1, h2⟩
          rcases List.mem_cons.mp h1 with rfl | h1
          · exact absurd hq h2
          · exact ⟨h1, h2⟩
      · rw [firstOccsAux, if_neg hq, List.mem_cons,
          mem_firstOccsAux rest (q :: seen) p]
        constructor
        · rintro (rfl | ⟨h1, h2⟩)
          · exact ⟨List.mem_cons_self p rest, hq⟩
          · exact ⟨List.mem_cons_of_mem q h1,
              fun hs => h2 (List.mem_cons_of_mem q hs)⟩
        · rintro ⟨h1, h2⟩
          rcases List.mem_cons.mp h1 with rfl | h1
          · exact Or.inl rfl
          · by_cases hpq : p = q
            · exact Or.inl hpq
            · refine Or.inr ⟨h1, fun hs => ?_⟩
              rcases List.mem_cons.mp hs with rfl | hs
              · exact hpq rfl
              · exact h2 hs

theorem mem_firstOccs (l : List String) (p : String) :
    p ∈ firstOccs l ↔ p ∈ l := by
  simp [firstOccs, mem_firstOccsAux]

/-- C8.  The frequency tally contains exactly the pairs `(p, k)` where
`p` is a path from the input list accepted by the filtering predicate, `k`
its number of occurrences among the accepted paths, and `k` is strictly
above the threshold; the result is sorted by count descending; and on the
spec's example only `x.cpp` with count 3 is reported. -/
theorem tally_correct (paths : List String) (threshold : Int) :
    (∀ (p : String) (k : Nat), (p, k) ∈ tally paths threshold ↔
      (p ∈ paths ∧ is_project_source_file p = true ∧
        k = (paths.filter is_project_source_file).count p ∧
        threshold < (k : Int))) ∧
    (tally paths threshold).Sorted byCountDesc ∧
    tally ["x.cpp", "x.cpp", "y.h", "x.cpp", "z.py"] 1 = [("x.cpp", 3)] := by
  refine ⟨?_, List.sorted_insertionSort byCountDesc _, by decide⟩
  intro p k
  have e : tally paths threshold =
      (((firstOccs (paths.filter is_project_source_file)).map
        (fun q => (q, (paths.filter is_project_source_file).count q))).filter
        (fun pc => decide (threshold < (pc.2 : Int)))).insertionSort
        byCountDesc := rfl
  rw [e, List.mem_insertionSort, List.mem_filter, List.mem_map]
  constructor
  · rintro ⟨⟨q, hq, heq⟩, hdec⟩
    have hqp : q = p := congrArg Prod.fst heq
    subst hqp
    have hk : (paths.filter is_project_source_file).count q = k :=
      congrArg Prod.snd heq
    subst hk
    have hq' : q ∈ paths.filter is_project_source_file :=
      (mem_firstOccs _ _).mp hq
    rw [List.mem_filter] at hq'
    exact ⟨hq'.1, hq'.2, rfl, by simpa using hdec⟩
  · rintro ⟨hp, hpred, rfl, hlt⟩
    refine ⟨⟨p, ?_, rfl⟩, by simpa using hlt⟩
    exact (mem_firstOccs _ _).mpr (List.mem_filter.mpr ⟨hp, hpred⟩)

end LocReport
